import Mathlib

/-!
Verification of the crawl-orchestration core of the crawl4ai MCP server
(`src/mcp-server/src/crawl4ai_mcp/server.py`).

The Python module has three pieces of original logic:

* `should_crawl_link(link, base_url, patterns)` — a pure link filter;
* `extend_knowledge_graph(framework_name, base_url, depth, patterns)` — a
  breadth-first crawl loop over a URL queue, building a knowledge graph;
* `crawl_documentation(url, extract_type)` — an adapter around the external
  crawler engine (`crawler.arun`), converting exceptions into failure dicts.

The external engine (network fetch + extraction) is not part of the
repository; it is modelled as an oracle parameter.  For the crawl loop the
oracle `fetch : String → FetchResult` stands for the value of
`await crawl_documentation(current_url, "structured")`, projected to the
fields the loop reads: `result.get("success")`, `result.get("title")`,
`result.get("content", {}).get("main_concepts", [])`,
`result.get("content", {}).get("api_methods", [])`, `result.get("links", [])`.
For `crawl_documentation` itself the oracle
`arun : String → String → Except String ArunResult` stands for
`await crawler.arun(url=url, **config)`: `.error e` models the `try` block
raising an exception `e`, `.ok r` models a normal return.

The crawl state carries, besides the Python variables (`url_queue`,
`visited_urls`, `knowledge_graph["nodes"]`, `knowledge_graph["relationships"]`),
four ghost logs used only to state theorems: `fetched` (each URL/depth pair
passed to the fetcher, in call order), `enqueued` (every queue entry ever
enqueued, in order, the initial seed included), `popped` (every queue entry
popped, in pop order) and `nodeWrites` (every assignment
`knowledge_graph["nodes"][current_url] = ...`, in order).  The ghost fields
are write-only inside the loop: no branch condition or non-ghost update reads
them.
-/

/-- `List Char` prefix test, the character-level meaning of Python
`str.startswith`. -/
def charsPrefixOf : List Char → List Char → Bool
  | [], _ => true
  | _ :: _, [] => false
  | a :: as, b :: bs => a == b && charsPrefixOf as bs

/-- `strStartsWith s pre` is Python `s.startswith(pre)`. -/
def strStartsWith (s pre : String) : Bool :=
  charsPrefixOf pre.data s.data

/-- Character-level contiguous-substring test: `charsSub needle hay` holds
iff `needle` occurs contiguously inside `hay`. -/
def charsSub (needle : List Char) : List Char → Bool
  | [] => charsPrefixOf needle []
  | c :: cs => charsPrefixOf needle (c :: cs) || charsSub needle cs

/-- `strContains hay needle` is Python `needle in hay` (contiguous substring
containment, case-sensitive). -/
def strContains (hay needle : String) : Bool :=
  charsSub needle.data hay.data

/-- Python truthiness of the `patterns: Optional[List[str]]` argument:
`None` and `[]` are falsy, a non-empty list is truthy. -/
def patternsTruthy : Option (List String) → Bool
  | none => false
  | some ps => !ps.isEmpty

/-- The `default_patterns` list of `should_crawl_link`. -/
def default_patterns : List String :=
  ["/api/", "/guide/", "/docs/", "/reference/", "/tutorial/"]

/-- Embedding of `should_crawl_link(link, base_url, patterns)`:

```python
if not link.startswith(base_url):
    return False
if patterns:
    return any(pattern in link for pattern in patterns)
default_patterns = ['/api/', '/guide/', '/docs/', '/reference/', '/tutorial/']
return any(pattern in link for pattern in default_patterns)
``` -/
def should_crawl_link (link base_url : String) (patterns : Option (List String)) : Bool :=
  if !(strStartsWith link base_url) then
    false
  else if patternsTruthy patterns then
    (patterns.getD []).any (fun pattern => strContains link pattern)
  else
    default_patterns.any (fun pattern => strContains link pattern)

/-- The projection of a `crawl_documentation(url, "structured")` result dict
to the fields `extend_knowledge_graph` reads.  `success` is
`result.get("success")` coerced to a truth value, `title` is
`result.get("title")`, `main_concepts` and `api_methods` come from
`result.get("content", {})`, `links` is `result.get("links", [])`. -/
structure FetchResult where
  success : Bool
  title : String
  main_concepts : List String
  api_methods : List String
  links : List String
deriving Repr, DecidableEq

/-- A value of `knowledge_graph["nodes"][url]`:
`{"title": ..., "concepts": ..., "apis": ..., "depth": current_depth}`. -/
structure PageNode where
  title : String
  concepts : List String
  apis : List String
  depth : Int
deriving Repr, DecidableEq

/-- An element of `knowledge_graph["relationships"]`:
`{"from": current_url, "to": link, "type": "references"}`. -/
structure Edge where
  fromUrl : String
  toUrl : String
  type : String
deriving Repr, DecidableEq

/-- The `knowledge_graph` dict returned by `extend_knowledge_graph`.  The
`nodes` dict is modelled as an insertion-ordered association list. -/
structure KnowledgeGraph where
  framework : String
  base_url : String
  nodes : List (String × PageNode)
  relationships : List Edge
deriving Repr, DecidableEq

/-- Python dict assignment `d[k] = v` on an insertion-ordered association
list: replace in place if the key is present, else append. -/
def dictSet (d : List (String × PageNode)) (k : String) (v : PageNode) :
    List (String × PageNode) :=
  if d.any (fun p => p.1 == k) then
    d.map (fun p => if p.1 == k then (k, v) else p)
  else
    d ++ [(k, v)]

/-- Python `d.get(k)` on the nodes dict: the value at the first (and, with
unique keys, only) entry for `k`. -/
def dictGet (d : List (String × PageNode)) (k : String) : Option PageNode :=
  (d.find? (fun p => p.1 == k)).map Prod.snd

/-- The `for link in result.get("links", [])` body of
`extend_knowledge_graph`: for each link passing `should_crawl_link`, one
queue entry `(link, current_depth + 1)` and one edge
`{"from": current_url, "to": link, "type": "references"}`, in link order.
The caller appends the first component to `url_queue` and the second to
`knowledge_graph["relationships"]`, exactly as the Python `append` calls
interleave. -/
def expandLinks (current_url : String) (current_depth : Int) (base_url : String)
    (patterns : Option (List String)) : List String → List (String × Int) × List Edge
  | [] => ([], [])
  | link :: rest =>
    if should_crawl_link link base_url patterns then
      ((link, current_depth + 1) ::
          (expandLinks current_url current_depth base_url patterns rest).1,
        { fromUrl := current_url, toUrl := link, type := "references" } ::
          (expandLinks current_url current_depth base_url patterns rest).2)
    else
      expandLinks current_url current_depth base_url patterns rest

/-- The loop state of `extend_knowledge_graph`.  `url_queue`, `visited_urls`,
`nodes` and `relationships` are the Python variables (the visited set is kept
as its insertion-ordered list of distinct members, so `visited_urls.length`
is `len(visited_urls)`).  `fetched`, `enqueued`, `popped` and `nodeWrites`
are ghost logs (see the module docstring); they are never read by the loop. -/
structure LoopState where
  url_queue : List (String × Int)
  visited_urls : List String
  nodes : List (String × PageNode)
  relationships : List Edge
  fetched : List (String × Int)
  enqueued : List (String × Int)
  popped : List (String × Int)
  nodeWrites : List (String × PageNode)
deriving Repr

/-- The node dict assigned to `knowledge_graph["nodes"][current_url]` on a
successful fetch:
`{"title": ..., "concepts": ..., "apis": ..., "depth": current_depth}`. -/
def mkNode (result : FetchResult) (current_depth : Int) : PageNode :=
  { title := result.title
    concepts := result.main_concepts
    apis := result.api_methods
    depth := current_depth }

/-- Embedding of the `while` loop of `extend_knowledge_graph`:

```python
while url_queue and len(visited_urls) < 50:
    current_url, current_depth = url_queue.pop(0)
    if current_url in visited_urls or current_depth > depth:
        continue
    visited_urls.add(current_url)
    result = await crawl_documentation(current_url, "structured")
    if result.get("success"):
        knowledge_graph["nodes"][current_url] = {..., "depth": current_depth}
        if current_depth < depth:
            for link in result.get("links", []):
                if should_crawl_link(link, base_url, patterns):
                    url_queue.append((link, current_depth + 1))
                    knowledge_graph["relationships"].append({...})
```

Termination: a skipped entry shrinks the queue at constant visited set; a
processed entry grows the visited set, whose size is capped at 50. -/
def crawlLoop (fetch : String → FetchResult) (base_url : String) (depth : Int)
    (patterns : Option (List String)) (s : LoopState) : LoopState :=
  match hq : s.url_queue with
  | [] => s
  | (current_url, current_depth) :: rest =>
    if s.visited_urls.length < 50 then
      if current_url ∈ s.visited_urls ∨ current_depth > depth then
        crawlLoop fetch base_url depth patterns
          { s with
            url_queue := rest
            popped := s.popped ++ [(current_url, current_depth)] }
      else
        if (fetch current_url).success then
          if current_depth < depth then
            crawlLoop fetch base_url depth patterns
              { url_queue :=
                  rest ++ (expandLinks current_url current_depth base_url patterns
                    (fetch current_url).links).1
                visited_urls := s.visited_urls ++ [current_url]
                nodes := dictSet s.nodes current_url (mkNode (fetch current_url) current_depth)
                relationships :=
                  s.relationships ++ (expandLinks current_url current_depth base_url patterns
                    (fetch current_url).links).2
                fetched := s.fetched ++ [(current_url, current_depth)]
                enqueued :=
                  s.enqueued ++ (expandLinks current_url current_depth base_url patterns
                    (fetch current_url).links).1
                popped := s.popped ++ [(current_url, current_depth)]
                nodeWrites := s.nodeWrites ++ [(current_url, mkNode (fetch current_url) current_depth)] }
          else
            crawlLoop fetch base_url depth patterns
              { url_queue := rest
                visited_urls := s.visited_urls ++ [current_url]
                nodes := dictSet s.nodes current_url (mkNode (fetch current_url) current_depth)
                relationships := s.relationships
                fetched := s.fetched ++ [(current_url, current_depth)]
                enqueued := s.enqueued
                popped := s.popped ++ [(current_url, current_depth)]
                nodeWrites := s.nodeWrites ++ [(current_url, mkNode (fetch current_url) current_depth)] }
        else
          crawlLoop fetch base_url depth patterns
            { url_queue := rest
              visited_urls := s.visited_urls ++ [current_url]
              nodes := s.nodes
              relationships := s.relationships
              fetched := s.fetched ++ [(current_url, current_depth)]
              enqueued := s.enqueued
              popped := s.popped ++ [(current_url, current_depth)]
              nodeWrites := s.nodeWrites }
    else
      s
termination_by (50 - s.visited_urls.length, s.url_queue.length)
decreasing_by
  · apply Prod.Lex.right
    simp [hq]
  · apply Prod.Lex.left
    simp only [List.length_append, List.length_singleton]
    omega
  · apply Prod.Lex.left
    simp only [List.length_append, List.length_singleton]
    omega
  · apply Prod.Lex.left
    simp only [List.length_append, List.length_singleton]
    omega

/-- The state before the loop:
`url_queue = [(base_url, 0)]`, everything else empty; the seed entry is the
first element of the `enqueued` ghost log. -/
def initState (base_url : String) : LoopState :=
  { url_queue := [(base_url, 0)]
    visited_urls := []
    nodes := []
    relationships := []
    fetched := []
    enqueued := [(base_url, 0)]
    popped := []
    nodeWrites := [] }

/-- The loop state at termination of one `extend_knowledge_graph` call. -/
def extendState (fetch : String → FetchResult) (base_url : String) (depth : Int)
    (patterns : Option (List String)) : LoopState :=
  crawlLoop fetch base_url depth patterns (initState base_url)

/-- Embedding of `extend_knowledge_graph(framework_name, base_url, depth,
patterns)`: run the loop from the seeded state and return the
`knowledge_graph` dict. -/
def extend_knowledge_graph (fetch : String → FetchResult)
    (framework_name base_url : String) (depth : Int)
    (patterns : Option (List String)) : KnowledgeGraph :=
  { framework := framework_name
    base_url := base_url
    nodes := (extendState fetch base_url depth patterns).nodes
    relationships := (extendState fetch base_url depth patterns).relationships }

/-- The `"structured"` extraction schema of `crawl_documentation`
(`title`, `main_concepts`, `code_examples`, `api_methods`, `dependencies`);
`api_methods` entries are opaque objects, kept as strings. -/
structure StructuredContent where
  title : String
  main_concepts : List String
  code_examples : List String
  api_methods : List String
  dependencies : List String
deriving Repr, DecidableEq

/-- The value stored under the `"content"` key of a `crawl_documentation`
result: `result.markdown` when `extract_type == "markdown"`, else
`result.extracted_content` (which the external engine may leave absent). -/
inductive PageContent where
  | markdownText : String → PageContent
  | extracted : Option StructuredContent → PageContent
deriving Repr, DecidableEq

/-- The result object of `crawler.arun(url=url, **config)`, projected to the
attributes `crawl_documentation` reads: `metadata` (an opaque string
mapping, read via `.get("title", "")`), `markdown`, `extracted_content`,
`links` and `success`. -/
structure ArunResult where
  metadata : List (String × String)
  markdown : String
  extracted_content : Option StructuredContent
  links : List String
  success : Bool
deriving Repr, DecidableEq

/-- The dict returned by `crawl_documentation`.  `Option` fields record
which keys are present: the success path returns
`{"url", "title", "content", "links", "metadata", "success"}`, the `except`
path returns only `{"url", "error", "success"}`. -/
structure CrawlDocResult where
  url : String
  title : Option String
  content : Option PageContent
  links : Option (List String)
  metadata : Option (List (String × String))
  success : Bool
  error : Option String
deriving Repr, DecidableEq

/-- Embedding of `crawl_documentation(url, extract_type)`.  The oracle
`arun` stands for the whole `try` body up to and including
`await crawler.arun(url=url, **config)`: `.error e` models an exception
with message `e` (caught by the `except` clause), `.ok result` a normal
return.  The oracle receives `extract_type` because the chosen config is a
function of it (`extraction_config.get(extract_type, ...)`). -/
def crawl_documentation (arun : String → String → Except String ArunResult)
    (url extract_type : String) : CrawlDocResult :=
  match arun url extract_type with
  | .error e =>
    { url := url
      title := none
      content := none
      links := none
      metadata := none
      success := false
      error := some e }
  | .ok result =>
    { url := url
      title := some (((result.metadata.find? (fun p => p.1 == "title")).map Prod.snd).getD "")
      content := some (if extract_type == "markdown" then .markdownText result.markdown
                       else .extracted result.extracted_content)
      links := some (if extract_type == "links" then result.links else [])
      metadata := some result.metadata
      success := result.success
      error := none }

/-! ## Helper lemmas on the string primitives -/

theorem charsPrefixOf_eq_isPrefixOf (p l : List Char) :
    charsPrefixOf p l = p.isPrefixOf l := by
  induction p generalizing l with
  | nil => cases l <;> rfl
  | cons a as ih =>
    cases l with
    | nil => rfl
    | cons b bs => simp [charsPrefixOf, List.isPrefixOf, ih]

theorem charsPrefixOf_iff (p l : List Char) :
    charsPrefixOf p l = true ↔ ∃ t, l = p ++ t := by
  rw [charsPrefixOf_eq_isPrefixOf, List.isPrefixOf_iff_prefix]
  constructor
  · rintro ⟨t, ht⟩
    exact ⟨t, ht.symm⟩
  · rintro ⟨t, ht⟩
    exact ⟨t, ht.symm⟩

theorem charsSub_iff (n h : List Char) :
    charsSub n h = true ↔ ∃ s t, h = s ++ n ++ t := by
  induction h with
  | nil =>
    cases n with
    | nil => simp [charsSub, charsPrefixOf]
    | cons c cs =>
      simp only [charsSub, charsPrefixOf]
      constructor
      · intro hf
        exact absurd hf (by simp)
      · rintro ⟨s, t, ht⟩
        exact absurd ht.symm (by simp)
  | cons c cs ih =>
    rw [charsSub, Bool.or_eq_true, ih, charsPrefixOf_iff]
    constructor
    · rintro (⟨t, ht⟩ | ⟨s, t, ht⟩)
      · exact ⟨[], t, by simpa using ht⟩
      · exact ⟨c :: s, t, by simp [ht]⟩
    · rintro ⟨s, t, ht⟩
      cases s with
      | nil =>
        left
        exact ⟨t, by simpa using ht⟩
      | cons x xs =>
        right
        rw [List.cons_append, List.cons_append] at ht
        injection ht with h1 h2
        exact ⟨xs, t, by simpa using h2⟩

theorem strContains_iff (hay needle : String) :
    strContains hay needle = true ↔ ∃ s t, hay.data = s ++ needle.data ++ t := by
  rw [strContains, charsSub_iff]

theorem strStartsWith_iff (s pre : String) :
    strStartsWith s pre = true ↔ ∃ t, s.data = pre.data ++ t := by
  rw [strStartsWith, charsPrefixOf_iff]

/-! ## Helper lemmas on `List.find?` and the nodes dict -/

theorem find?_append_some {α : Type} (p : α → Bool) (l₁ l₂ : List α) (a : α)
    (h : l₁.find? p = some a) : (l₁ ++ l₂).find? p = some a := by
  induction l₁ with
  | nil => simp [List.find?] at h
  | cons b bs ih =>
    rw [List.cons_append]
    cases hb : p b with
    | true =>
      rw [List.find?_cons_of_pos _ hb] at h ⊢
      exact h
    | false =>
      rw [List.find?_cons_of_neg _ (by simp [hb])] at h ⊢
      exact ih h

theorem find?_append_none {α : Type} (p : α → Bool) (l₁ l₂ : List α)
    (h : l₁.find? p = none) : (l₁ ++ l₂).find? p = l₂.find? p := by
  induction l₁ with
  | nil => rfl
  | cons b bs ih =>
    rw [List.find?_eq_none] at h
    rw [List.cons_append, List.find?_cons_of_neg _ (by simpa using h b (by simp))]
    exact ih (List.find?_eq_none.2 (fun x hx => h x (by simp [hx])))

theorem dictSet_append (d : List (String × PageNode)) (k : String) (v : PageNode)
    (h : ∀ p ∈ d, p.1 ≠ k) : dictSet d k v = d ++ [(k, v)] := by
  rw [dictSet, if_neg]
  simp only [List.any_eq_true, not_exists, not_and]
  intro p hp
  simpa using h p hp

theorem dictGet_eq_some_mem (d : List (String × PageNode)) (k : String) (n : PageNode)
    (h : dictGet d k = some n) : (k, n) ∈ d := by
  rw [dictGet] at h
  cases hf : d.find? (fun p => p.1 == k) with
  | none => rw [hf] at h; simp at h
  | some p =>
    rw [hf] at h
    have hk : p.1 = k := by simpa using List.find?_some hf
    have hm : p ∈ d := List.mem_of_find?_eq_some hf
    have hn : p.2 = n := by simpa using h
    cases p
    simp_all

/-! ## Helper lemmas on `expandLinks` -/

theorem expandLinks_depth (cu : String) (cd : Int) (b : String)
    (pats : Option (List String)) (links : List String) :
    ∀ e ∈ (expandLinks cu cd b pats links).1, e.2 = cd + 1 := by
  induction links with
  | nil => simp [expandLinks]
  | cons l ls ih =>
    rw [expandLinks]
    split
    · intro e he
      rcases List.mem_cons.1 he with rfl | he'
      · rfl
      · exact ih e he'
    · exact ih

theorem expandLinks_from (cu : String) (cd : Int) (b : String)
    (pats : Option (List String)) (links : List String) :
    ∀ ed ∈ (expandLinks cu cd b pats links).2, ed.fromUrl = cu := by
  induction links with
  | nil => simp [expandLinks]
  | cons l ls ih =>
    rw [expandLinks]
    split
    · intro ed hed
      rcases List.mem_cons.1 hed with rfl | hed'
      · rfl
      · exact ih ed hed'
    · exact ih

/-! ## The loop invariant

`CrawlInv fetch depth s` collects the facts preserved by every iteration of the
crawl loop.  The queue/ghost-log bookkeeping (`enq_eq`, `enq_sorted`, `span`,
`popped_handled`) is the breadth-first structure; the `nodes_*` fields are the
graph-assembly facts the claims need. -/

/-- Every depth in the queue is at most one more than the depth at the front
(the classic BFS "two consecutive levels" property). -/
def spanOk : List (String × Int) → Prop
  | [] => True
  | e0 :: rest => ∀ e ∈ e0 :: rest, e.2 ≤ e0.2 + 1

structure CrawlInv (fetch : String → FetchResult) (depth : Int) (s : LoopState) : Prop where
  fetched_visited : s.fetched.map Prod.fst = s.visited_urls
  visited_nodup : s.visited_urls.Nodup
  visited_le : s.visited_urls.length ≤ 50
  enq_eq : s.enqueued = s.popped ++ s.url_queue
  enq_sorted : List.Pairwise (fun a b => a ≤ b) (s.enqueued.map Prod.snd)
  span : spanOk s.url_queue
  fetched_sub : s.fetched.Sublist s.popped
  popped_handled : ∀ e ∈ s.popped, e.1 ∈ s.visited_urls ∨ e.2 > depth
  nodes_writes : s.nodeWrites = s.nodes
  nodes_keys_nodup : (s.nodes.map Prod.fst).Nodup
  nodes_visited : ∀ p ∈ s.nodes, p.1 ∈ s.visited_urls
  nodes_depth_le : ∀ p ∈ s.nodes, (Prod.snd p).depth ≤ depth
  nodes_success : ∀ p ∈ s.nodes, (fetch p.1).success = true
  nodes_first_enq : ∀ p ∈ s.nodes,
    (s.enqueued.find? (fun e => e.1 == p.1)).map Prod.snd = some (Prod.snd p).depth
  rels_from_nodes : ∀ e ∈ s.relationships, e.fromUrl ∈ s.nodes.map Prod.fst

theorem CrawlInv.queue_sorted {fetch : String → FetchResult} {depth : Int} {s : LoopState}
    (h : CrawlInv fetch depth s) :
    List.Pairwise (fun a b => a ≤ b) (s.url_queue.map Prod.snd) := by
  have := h.enq_sorted
  rw [h.enq_eq, List.map_append] at this
  exact (List.pairwise_append.1 this).2.1

theorem CrawlInv.popped_le_head {fetch : String → FetchResult} {depth : Int} {s : LoopState}
    (h : CrawlInv fetch depth s) {cu : String} {cd : Int} {rest : List (String × Int)}
    (hq : s.url_queue = (cu, cd) :: rest) :
    ∀ e ∈ s.popped, e.2 ≤ cd := by
  have := h.enq_sorted
  rw [h.enq_eq, List.map_append] at this
  intro e he
  exact (List.pairwise_append.1 this).2.2 e.2 (List.mem_map_of_mem _ he) cd
    (by rw [hq]; simp)

theorem CrawlInv.head_le_rest {fetch : String → FetchResult} {depth : Int} {s : LoopState}
    (h : CrawlInv fetch depth s) {cu : String} {cd : Int} {rest : List (String × Int)}
    (hq : s.url_queue = (cu, cd) :: rest) :
    ∀ e ∈ rest, cd ≤ e.2 := by
  have hs := h.queue_sorted
  rw [hq] at hs
  intro e he
  rw [List.map_cons, List.pairwise_cons] at hs
  exact hs.1 e.2 (List.mem_map_of_mem _ he)

theorem CrawlInv.rest_le_head_succ {fetch : String → FetchResult} {depth : Int} {s : LoopState}
    (h : CrawlInv fetch depth s) {cu : String} {cd : Int} {rest : List (String × Int)}
    (hq : s.url_queue = (cu, cd) :: rest) :
    ∀ e ∈ rest, e.2 ≤ cd + 1 := by
  have hs := h.span
  rw [hq] at hs
  intro e he
  exact hs e (by simp [he])

/-! ## Preservation of the invariant by each loop branch -/

theorem spanOk_tail {fetch : String → FetchResult} {depth : Int} {s : LoopState}
    (h : CrawlInv fetch depth s) {cu : String} {cd : Int} {rest : List (String × Int)}
    (hq : s.url_queue = (cu, cd) :: rest) : spanOk rest := by
  cases hr : rest with
  | nil => exact True.intro
  | cons r0 rs =>
    simp only [spanOk]
    intro e he
    have h1 : e.2 ≤ cd + 1 := h.rest_le_head_succ hq e (hr ▸ he)
    have h2 : cd ≤ r0.2 := h.head_le_rest hq r0 (by simp [hr])
    omega

theorem CrawlInv_skip {fetch : String → FetchResult} {depth : Int} {s : LoopState}
    {cu : String} {cd : Int} {rest : List (String × Int)}
    (h : CrawlInv fetch depth s)
    (hq : s.url_queue = (cu, cd) :: rest)
    (hskip : cu ∈ s.visited_urls ∨ cd > depth) :
    CrawlInv fetch depth
      { s with url_queue := rest, popped := s.popped ++ [(cu, cd)] } := by
  refine
    { fetched_visited := h.fetched_visited
      visited_nodup := h.visited_nodup
      visited_le := h.visited_le
      enq_eq := ?_
      enq_sorted := h.enq_sorted
      span := spanOk_tail h hq
      fetched_sub := h.fetched_sub.trans (List.sublist_append_left _ _)
      popped_handled := ?_
      nodes_writes := h.nodes_writes
      nodes_keys_nodup := h.nodes_keys_nodup
      nodes_visited := h.nodes_visited
      nodes_depth_le := h.nodes_depth_le
      nodes_success := h.nodes_success
      nodes_first_enq := h.nodes_first_enq
      rels_from_nodes := h.rels_from_nodes }
  · rw [h.enq_eq, hq]
    simp
  · intro e he
    rcases List.mem_append.1 he with he' | he'
    · exact h.popped_handled e he'
    · have : e = (cu, cd) := by simpa using he'
      subst this
      exact hskip

theorem CrawlInv_fail {fetch : String → FetchResult} {depth : Int} {s : LoopState}
    {cu : String} {cd : Int} {rest : List (String × Int)}
    (h : CrawlInv fetch depth s)
    (hq : s.url_queue = (cu, cd) :: rest)
    (hnv : cu ∉ s.visited_urls)
    (hv : s.visited_urls.length < 50) :
    CrawlInv fetch depth
      { url_queue := rest
        visited_urls := s.visited_urls ++ [cu]
        nodes := s.nodes
        relationships := s.relationships
        fetched := s.fetched ++ [(cu, cd)]
        enqueued := s.enqueued
        popped := s.popped ++ [(cu, cd)]
        nodeWrites := s.nodeWrites } := by
  refine
    { fetched_visited := ?_
      visited_nodup := ?_
      visited_le := ?_
      enq_eq := ?_
      enq_sorted := h.enq_sorted
      span := spanOk_tail h hq
      fetched_sub := h.fetched_sub.append (List.Sublist.refl _)
      popped_handled := ?_
      nodes_writes := h.nodes_writes
      nodes_keys_nodup := h.nodes_keys_nodup
      nodes_visited := ?_
      nodes_depth_le := h.nodes_depth_le
      nodes_success := h.nodes_success
      nodes_first_enq := h.nodes_first_enq
      rels_from_nodes := h.rels_from_nodes }
  · rw [List.map_append, h.fetched_visited]
    rfl
  · rw [List.nodup_append]
    refine ⟨h.visited_nodup, List.nodup_singleton _, ?_⟩
    intro a ha hb
    have hac : a = cu := by simpa using hb
    exact hnv (hac ▸ ha)
  · simp only [List.length_append, List.length_singleton]
    omega
  · rw [h.enq_eq, hq]
    simp
  · intro e he
    rcases List.mem_append.1 he with he' | he'
    · rcases h.popped_handled e he' with hh | hh
      · exact Or.inl (List.mem_append_left _ hh)
      · exact Or.inr hh
    · have : e = (cu, cd) := by simpa using he'
      subst this
      exact Or.inl (by simp)
  · intro p hp
    exact List.mem_append_left _ (h.nodes_visited p hp)

/-- While `cu` is unvisited and within depth, the first `cu`-entry of the
enqueue log is the entry at the front of the queue: every earlier (already
popped) entry either carried a different URL or was depth-skipped, and the
second case is impossible because enqueue depths never decrease. -/
theorem enq_find_head {fetch : String → FetchResult} {depth : Int} {s : LoopState}
    {cu : String} {cd : Int} {rest : List (String × Int)}
    (h : CrawlInv fetch depth s)
    (hq : s.url_queue = (cu, cd) :: rest)
    (hnv : cu ∉ s.visited_urls)
    (hnd : ¬ cd > depth) :
    s.enqueued.find? (fun e => e.1 == cu) = some (cu, cd) := by
  have hnone : s.popped.find? (fun e => e.1 == cu) = none := by
    rw [List.find?_eq_none]
    intro e he
    simp only [beq_iff_eq]
    intro hec
    rcases h.popped_handled e he with hh | hh
    · exact hnv (hec ▸ hh)
    · have := h.popped_le_head hq e he
      omega
  rw [h.enq_eq, hq, find?_append_none _ _ _ hnone, List.find?_cons_of_pos _ (by simp)]

theorem nodes_fresh {fetch : String → FetchResult} {depth : Int} {s : LoopState}
    {cu : String} (h : CrawlInv fetch depth s) (hnv : cu ∉ s.visited_urls) :
    ∀ p ∈ s.nodes, p.1 ≠ cu :=
  fun p hp hpc => hnv (hpc ▸ h.nodes_visited p hp)

theorem CrawlInv_process_node {fetch : String → FetchResult} {depth : Int} {s : LoopState}
    {cu : String} {cd : Int} {rest : List (String × Int)}
    (h : CrawlInv fetch depth s)
    (hq : s.url_queue = (cu, cd) :: rest)
    (hnv : cu ∉ s.visited_urls)
    (hnd : ¬ cd > depth)
    (hv : s.visited_urls.length < 50)
    (hsuc : (fetch cu).success = true) :
    CrawlInv fetch depth
      { url_queue := rest
        visited_urls := s.visited_urls ++ [cu]
        nodes := dictSet s.nodes cu (mkNode (fetch cu) cd)
        relationships := s.relationships
        fetched := s.fetched ++ [(cu, cd)]
        enqueued := s.enqueued
        popped := s.popped ++ [(cu, cd)]
        nodeWrites := s.nodeWrites ++ [(cu, mkNode (fetch cu) cd)] } := by
  have hbase := CrawlInv_fail h hq hnv hv
  have hds : dictSet s.nodes cu (mkNode (fetch cu) cd) =
      s.nodes ++ [(cu, mkNode (fetch cu) cd)] :=
    dictSet_append _ _ _ (nodes_fresh h hnv)
  refine
    { fetched_visited := hbase.fetched_visited
      visited_nodup := hbase.visited_nodup
      visited_le := hbase.visited_le
      enq_eq := hbase.enq_eq
      enq_sorted := h.enq_sorted
      span := spanOk_tail h hq
      fetched_sub := hbase.fetched_sub
      popped_handled := hbase.popped_handled
      nodes_writes := ?_
      nodes_keys_nodup := ?_
      nodes_visited := ?_
      nodes_depth_le := ?_
      nodes_success := ?_
      nodes_first_enq := ?_
      rels_from_nodes := ?_ }
  · rw [hds, h.nodes_writes]
  · rw [hds, List.map_append, List.nodup_append]
    refine ⟨h.nodes_keys_nodup, by simp, ?_⟩
    intro a ha hb
    have hac : a = cu := by simpa using hb
    subst hac
    rcases List.mem_map.1 ha with ⟨p, hp, hpa⟩
    exact nodes_fresh h hnv p hp hpa
  · rw [hds]
    intro p hp
    rcases List.mem_append.1 hp with hp' | hp'
    · exact List.mem_append_left _ (h.nodes_visited p hp')
    · have : p = (cu, mkNode (fetch cu) cd) := by simpa using hp'
      subst this
      simp
  · rw [hds]
    intro p hp
    rcases List.mem_append.1 hp with hp' | hp'
    · exact h.nodes_depth_le p hp'
    · have : p = (cu, mkNode (fetch cu) cd) := by simpa using hp'
      subst this
      simp only [mkNode]
      omega
  · rw [hds]
    intro p hp
    rcases List.mem_append.1 hp with hp' | hp'
    · exact h.nodes_success p hp'
    · have : p = (cu, mkNode (fetch cu) cd) := by simpa using hp'
      subst this
      exact hsuc
  · rw [hds]
    intro p hp
    rcases List.mem_append.1 hp with hp' | hp'
    · exact h.nodes_first_enq p hp'
    · have : p = (cu, mkNode (fetch cu) cd) := by simpa using hp'
      subst this
      rw [enq_find_head h hq hnv hnd]
      rfl
  · rw [hds]
    intro e he
    rw [List.map_append]
    exact List.mem_append_left _ (h.rels_from_nodes e he)

/-- Every depth ever enqueued is at most one more than the depth at the
front of the queue. -/
theorem enq_depth_le {fetch : String → FetchResult} {depth : Int} {s : LoopState}
    {cu : String} {cd : Int} {rest : List (String × Int)}
    (h : CrawlInv fetch depth s)
    (hq : s.url_queue = (cu, cd) :: rest) :
    ∀ a ∈ s.enqueued.map Prod.snd, a ≤ cd + 1 := by
  intro a ha
  rw [h.enq_eq, hq, List.map_append, List.map_cons] at ha
  rcases List.mem_append.1 ha with ha' | ha'
  · rcases List.mem_map.1 ha' with ⟨e, he, rfl⟩
    have := h.popped_le_head hq e he
    omega
  · rcases List.mem_cons.1 ha' with rfl | ha''
    · omega
    · rcases List.mem_map.1 ha'' with ⟨e, he, rfl⟩
      have := h.rest_le_head_succ hq e he
      omega

theorem CrawlInv_process_expand {fetch : String → FetchResult} {depth : Int}
    {base_url : String} {patterns : Option (List String)} {s : LoopState}
    {cu : String} {cd : Int} {rest : List (String × Int)}
    (h : CrawlInv fetch depth s)
    (hq : s.url_queue = (cu, cd) :: rest)
    (hnv : cu ∉ s.visited_urls)
    (hnd : ¬ cd > depth)
    (hv : s.visited_urls.length < 50)
    (hsuc : (fetch cu).success = true) :
    CrawlInv fetch depth
      { url_queue := rest ++ (expandLinks cu cd base_url patterns (fetch cu).links).1
        visited_urls := s.visited_urls ++ [cu]
        nodes := dictSet s.nodes cu (mkNode (fetch cu) cd)
        relationships := s.relationships ++ (expandLinks cu cd base_url patterns (fetch cu).links).2
        fetched := s.fetched ++ [(cu, cd)]
        enqueued := s.enqueued ++ (expandLinks cu cd base_url patterns (fetch cu).links).1
        popped := s.popped ++ [(cu, cd)]
        nodeWrites := s.nodeWrites ++ [(cu, mkNode (fetch cu) cd)] } := by
  have hbase := CrawlInv_process_node h hq hnv hnd hv hsuc
  have hdep := expandLinks_depth cu cd base_url patterns (fetch cu).links
  have hfrom := expandLinks_from cu cd base_url patterns (fetch cu).links
  have hds : dictSet s.nodes cu (mkNode (fetch cu) cd) =
      s.nodes ++ [(cu, mkNode (fetch cu) cd)] :=
    dictSet_append _ _ _ (nodes_fresh h hnv)
  refine
    { fetched_visited := hbase.fetched_visited
      visited_nodup := hbase.visited_nodup
      visited_le := hbase.visited_le
      enq_eq := ?_
      enq_sorted := ?_
      span := ?_
      fetched_sub := hbase.fetched_sub
      popped_handled := hbase.popped_handled
      nodes_writes := hbase.nodes_writes
      nodes_keys_nodup := hbase.nodes_keys_nodup
      nodes_visited := hbase.nodes_visited
      nodes_depth_le := hbase.nodes_depth_le
      nodes_success := hbase.nodes_success
      nodes_first_enq := ?_
      rels_from_nodes := ?_ }
  · rw [h.enq_eq, hq]
    simp
  · rw [List.map_append, List.pairwise_append]
    refine ⟨h.enq_sorted, ?_, ?_⟩
    · refine List.pairwise_of_forall_mem_list ?_
      intro a ha b hb
      rcases List.mem_map.1 ha with ⟨e, he, rfl⟩
      rcases List.mem_map.1 hb with ⟨e', he', rfl⟩
      rw [hdep e he, hdep e' he']
    · intro a ha b hb
      rcases List.mem_map.1 hb with ⟨e, he, rfl⟩
      rw [hdep e he]
      exact enq_depth_le h hq a ha
  · cases hr : rest with
    | nil =>
      simp only [List.nil_append]
      cases hx : (expandLinks cu cd base_url patterns (fetch cu).links).1 with
      | nil => exact True.intro
      | cons e0 es =>
        simp only [spanOk]
        intro e he
        have h1 : e.2 = cd + 1 := hdep e (by rw [hx]; exact he)
        have h0 : e0.2 = cd + 1 := hdep e0 (by rw [hx]; simp)
        omega
    | cons r0 rs =>
      simp only [List.cons_append, spanOk]
      intro e he
      have h0 : cd ≤ r0.2 := h.head_le_rest hq r0 (by simp [hr])
      rcases List.mem_cons.1 he with rfl | he'
      · omega
      · rcases List.mem_append.1 he' with he'' | he''
        · have := h.rest_le_head_succ hq e (by rw [hr]; simp [he''])
          omega
        · have := hdep e he''
          omega
  · intro p hp
    have hfe := hbase.nodes_first_enq p hp
    cases hf : s.enqueued.find? (fun e => e.1 == p.1) with
    | none => rw [hf] at hfe; simp at hfe
    | some a =>
      rw [hf] at hfe
      rw [find?_append_some _ _ _ _ hf]
      exact hfe
  · intro e he
    rcases List.mem_append.1 he with he' | he'
    · exact hbase.rels_from_nodes e he'
    · rw [hds, List.map_append]
      refine List.mem_append_right _ ?_
      rw [hfrom e he']
      simp

/-! ## Unfolding equations for the loop, one per branch -/

theorem crawlLoop_nil {fetch : String → FetchResult} {base_url : String} {depth : Int}
    {patterns : Option (List String)} {s : LoopState}
    (hx : s.url_queue = []) :
    crawlLoop fetch base_url depth patterns s = s := by
  rw [crawlLoop.eq_def, hx]

theorem crawlLoop_cap_eq {fetch : String → FetchResult} {base_url : String} {depth : Int}
    {patterns : Option (List String)} {s : LoopState}
    {cu : String} {cd : Int} {rest : List (String × Int)}
    (hq : s.url_queue = (cu, cd) :: rest)
    (hlen : ¬ s.visited_urls.length < 50) :
    crawlLoop fetch base_url depth patterns s = s := by
  rw [crawlLoop.eq_def, hq]
  simp only []
  exact if_neg hlen

theorem crawlLoop_skip_eq {fetch : String → FetchResult} {base_url : String} {depth : Int}
    {patterns : Option (List String)} {s : LoopState}
    {cu : String} {cd : Int} {rest : List (String × Int)}
    (hq : s.url_queue = (cu, cd) :: rest)
    (hlen : s.visited_urls.length < 50)
    (hskip : cu ∈ s.visited_urls ∨ cd > depth) :
    crawlLoop fetch base_url depth patterns s =
      crawlLoop fetch base_url depth patterns
        { s with url_queue := rest, popped := s.popped ++ [(cu, cd)] } := by
  rw [crawlLoop.eq_def, hq]
  simp only []
  rw [if_pos hlen, if_pos hskip]

theorem crawlLoop_fail_eq {fetch : String → FetchResult} {base_url : String} {depth : Int}
    {patterns : Option (List String)} {s : LoopState}
    {cu : String} {cd : Int} {rest : List (String × Int)}
    (hq : s.url_queue = (cu, cd) :: rest)
    (hlen : s.visited_urls.length < 50)
    (hnskip : ¬(cu ∈ s.visited_urls ∨ cd > depth))
    (hnsuc : ¬ (fetch cu).success = true) :
    crawlLoop fetch base_url depth patterns s =
      crawlLoop fetch base_url depth patterns
        { url_queue := rest
          visited_urls := s.visited_urls ++ [cu]
          nodes := s.nodes
          relationships := s.relationships
          fetched := s.fetched ++ [(cu, cd)]
          enqueued := s.enqueued
          popped := s.popped ++ [(cu, cd)]
          nodeWrites := s.nodeWrites } := by
  rw [crawlLoop.eq_def, hq]
  simp only []
  rw [if_pos hlen, if_neg hnskip, if_neg hnsuc]

theorem crawlLoop_noexpand_eq {fetch : String → FetchResult} {base_url : String} {depth : Int}
    {patterns : Option (List String)} {s : LoopState}
    {cu : String} {cd : Int} {rest : List (String × Int)}
    (hq : s.url_queue = (cu, cd) :: rest)
    (hlen : s.visited_urls.length < 50)
    (hnskip : ¬(cu ∈ s.visited_urls ∨ cd > depth))
    (hsuc : (fetch cu).success = true)
    (hnlt : ¬ cd < depth) :
    crawlLoop fetch base_url depth patterns s =
      crawlLoop fetch base_url depth patterns
        { url_queue := rest
          visited_urls := s.visited_urls ++ [cu]
          nodes := dictSet s.nodes cu (mkNode (fetch cu) cd)
          relationships := s.relationships
          fetched := s.fetched ++ [(cu, cd)]
          enqueued := s.enqueued
          popped := s.popped ++ [(cu, cd)]
          nodeWrites := s.nodeWrites ++ [(cu, mkNode (fetch cu) cd)] } := by
  rw [crawlLoop.eq_def, hq]
  simp only []
  rw [if_pos hlen, if_neg hnskip, if_pos hsuc, if_neg hnlt]

theorem crawlLoop_expand_eq {fetch : String → FetchResult} {base_url : String} {depth : Int}
    {patterns : Option (List String)} {s : LoopState}
    {cu : String} {cd : Int} {rest : List (String × Int)}
    (hq : s.url_queue = (cu, cd) :: rest)
    (hlen : s.visited_urls.length < 50)
    (hnskip : ¬(cu ∈ s.visited_urls ∨ cd > depth))
    (hsuc : (fetch cu).success = true)
    (hlt : cd < depth) :
    crawlLoop fetch base_url depth patterns s =
      crawlLoop fetch base_url depth patterns
        { url_queue := rest ++ (expandLinks cu cd base_url patterns (fetch cu).links).1
          visited_urls := s.visited_urls ++ [cu]
          nodes := dictSet s.nodes cu (mkNode (fetch cu) cd)
          relationships :=
            s.relationships ++ (expandLinks cu cd base_url patterns (fetch cu).links).2
          fetched := s.fetched ++ [(cu, cd)]
          enqueued := s.enqueued ++ (expandLinks cu cd base_url patterns (fetch cu).links).1
          popped := s.popped ++ [(cu, cd)]
          nodeWrites := s.nodeWrites ++ [(cu, mkNode (fetch cu) cd)] } := by
  rw [crawlLoop.eq_def, hq]
  simp only []
  rw [if_pos hlen, if_neg hnskip, if_pos hsuc, if_pos hlt]

/-! ## The invariant holds at the final state -/

theorem crawlLoop_inv (fetch : String → FetchResult) (base_url : String) (depth : Int)
    (patterns : Option (List String)) :
    ∀ s : LoopState, CrawlInv fetch depth s →
      CrawlInv fetch depth (crawlLoop fetch base_url depth patterns s) := by
  intro s
  induction s using crawlLoop.induct fetch base_url depth patterns with
  | case1 x hx =>
    intro h
    rwa [crawlLoop_nil hx]
  | case2 x cu cd rest hq hlen hskip ih =>
    intro h
    rw [crawlLoop_skip_eq hq hlen hskip]
    exact ih (CrawlInv_skip h hq hskip)
  | case3 x cu cd rest hq hlen hnskip hsuc hlt ih =>
    intro h
    rcases not_or.1 hnskip with ⟨hnv, hnd⟩
    rw [crawlLoop_expand_eq hq hlen hnskip hsuc hlt]
    exact ih (CrawlInv_process_expand h hq hnv hnd hlen hsuc)
  | case4 x cu cd rest hq hlen hnskip hsuc hnlt ih =>
    intro h
    rcases not_or.1 hnskip with ⟨hnv, hnd⟩
    rw [crawlLoop_noexpand_eq hq hlen hnskip hsuc hnlt]
    exact ih (CrawlInv_process_node h hq hnv hnd hlen hsuc)
  | case5 x cu cd rest hq hlen hnskip hnsuc ih =>
    intro h
    rcases not_or.1 hnskip with ⟨hnv, hnd⟩
    rw [crawlLoop_fail_eq hq hlen hnskip hnsuc]
    exact ih (CrawlInv_fail h hq hnv hlen)
  | case6 x cu cd rest hq hlen =>
    intro h
    rwa [crawlLoop_cap_eq hq hlen]

/-- The loop returns only from one of its two exits: empty queue, or the
50-visited cap reached. -/
theorem crawlLoop_exit (fetch : String → FetchResult) (base_url : String) (depth : Int)
    (patterns : Option (List String)) :
    ∀ s : LoopState,
      (crawlLoop fetch base_url depth patterns s).url_queue = [] ∨
        ¬ (crawlLoop fetch base_url depth patterns s).visited_urls.length < 50 := by
  intro s
  induction s using crawlLoop.induct fetch base_url depth patterns with
  | case1 x hx =>
    rw [crawlLoop_nil hx]
    exact Or.inl hx
  | case2 x cu cd rest hq hlen hskip ih =>
    rwa [crawlLoop_skip_eq hq hlen hskip]
  | case3 x cu cd rest hq hlen hnskip hsuc hlt ih =>
    rwa [crawlLoop_expand_eq hq hlen hnskip hsuc hlt]
  | case4 x cu cd rest hq hlen hnskip hsuc hnlt ih =>
    rwa [crawlLoop_noexpand_eq hq hlen hnskip hsuc hnlt]
  | case5 x cu cd rest hq hlen hnskip hnsuc ih =>
    rwa [crawlLoop_fail_eq hq hlen hnskip hnsuc]
  | case6 x cu cd rest hq hlen =>
    rw [crawlLoop_cap_eq hq hlen]
    exact Or.inr hlen

/-- The invariant holds at the seeded state. -/
theorem CrawlInv_init (fetch : String → FetchResult) (depth : Int) (base_url : String) :
    CrawlInv fetch depth (initState base_url) := by
  refine
    { fetched_visited := rfl
      visited_nodup := List.nodup_nil
      visited_le := by simp [initState]
      enq_eq := rfl
      enq_sorted := by simp [initState]
      span := ?_
      fetched_sub := List.Sublist.refl _
      popped_handled := by simp [initState]
      nodes_writes := rfl
      nodes_keys_nodup := List.nodup_nil
      nodes_visited := by simp [initState]
      nodes_depth_le := by simp [initState]
      nodes_success := by simp [initState]
      nodes_first_enq := by simp [initState]
      rels_from_nodes := by simp [initState] }
  · simp only [initState, spanOk]
    intro e he
    have : e = (base_url, 0) := by simpa using he
    subst this
    omega

/-- The invariant at the final state of `extend_knowledge_graph`. -/
theorem extendState_inv (fetch : String → FetchResult) (base_url : String) (depth : Int)
    (patterns : Option (List String)) :
    CrawlInv fetch depth (extendState fetch base_url depth patterns) :=
  crawlLoop_inv fetch base_url depth patterns (initState base_url)
    (CrawlInv_init fetch depth base_url)

/-! ## Claim theorems -/

/-- C1: in every `extend_knowledge_graph` invocation, `crawl_documentation`
is invoked at most once per URL: the fetch-call log contains no URL twice,
and it coincides (same URLs, same order) with the visited set, whose
membership is checked before processing and into which a URL is inserted
before its fetch is issued. -/
theorem crawl_fetches_once (fetch : String → FetchResult) (base_url : String)
    (depth : Int) (patterns : Option (List String)) :
    ((extendState fetch base_url depth patterns).fetched.map Prod.fst).Nodup ∧
      (extendState fetch base_url depth patterns).fetched.map Prod.fst =
        (extendState fetch base_url depth patterns).visited_urls := by
  have h := extendState_inv fetch base_url depth patterns
  refine ⟨?_, h.fetched_visited⟩
  rw [h.fetched_visited]
  exact h.visited_nodup

/-- C2: at termination of any `extend_knowledge_graph` invocation the
visited set has at most 50 URLs, and the loop has stopped exactly because
the queue is empty or the visited count has reached 50. -/
theorem crawl_visited_cap (fetch : String → FetchResult) (base_url : String)
    (depth : Int) (patterns : Option (List String)) :
    (extendState fetch base_url depth patterns).visited_urls.length ≤ 50 ∧
      ((extendState fetch base_url depth patterns).url_queue = [] ∨
        (extendState fetch base_url depth patterns).visited_urls.length = 50) := by
  have h := extendState_inv fetch base_url depth patterns
  refine ⟨h.visited_le, ?_⟩
  have hex : (extendState fetch base_url depth patterns).url_queue = [] ∨
      ¬ (extendState fetch base_url depth patterns).visited_urls.length < 50 :=
    crawlLoop_exit fetch base_url depth patterns (initState base_url)
  rcases hex with he | he
  · exact Or.inl he
  · right
    have := h.visited_le
    omega

/-- C4: the crawl is breadth-first: the entries ever popped form, in pop
order, a prefix of the entries ever enqueued in enqueue order (FIFO), and
the depths of processed (fetched) pages are non-decreasing over the run, so
every page processed at depth `d` is processed before any page at depth
`d + 1`. -/
theorem crawl_bfs_order (fetch : String → FetchResult) (base_url : String)
    (depth : Int) (patterns : Option (List String)) :
    (extendState fetch base_url depth patterns).enqueued =
        (extendState fetch base_url depth patterns).popped ++
          (extendState fetch base_url depth patterns).url_queue ∧
      List.Pairwise (fun a b => a ≤ b)
        ((extendState fetch base_url depth patterns).fetched.map Prod.snd) := by
  have h := extendState_inv fetch base_url depth patterns
  refine ⟨h.enq_eq, ?_⟩
  have hsub : (extendState fetch base_url depth patterns).fetched.Sublist
      (extendState fetch base_url depth patterns).enqueued := by
    refine h.fetched_sub.trans ?_
    rw [h.enq_eq]
    exact List.sublist_append_left _ _
  exact List.Pairwise.sublist (hsub.map Prod.snd) h.enq_sorted

/-- Spec-side reading of Python `base in link`-style containment: `needle`
occurs contiguously inside `hay`, stated over the character lists. -/
def HasSub (hay needle : String) : Prop :=
  ∃ l r, hay.data = l ++ needle.data ++ r

/-- Spec-side reading of `link.startswith(base)`: the character list of
`base` is a literal (case-sensitive) prefix of that of `link`. -/
def HasPrefixStr (link base : String) : Prop :=
  ∃ t, link.data = base.data ++ t

theorem strContains_iff_HasSub (hay needle : String) :
    strContains hay needle = true ↔ HasSub hay needle :=
  strContains_iff hay needle

theorem strStartsWith_iff_HasPrefixStr (link base : String) :
    strStartsWith link base = true ↔ HasPrefixStr link base :=
  strStartsWith_iff link base

theorem any_strContains_iff (link : String) (ps : List String) :
    (ps.any fun pattern => strContains link pattern) = true ↔
      ∃ p ∈ ps, HasSub link p := by
  rw [List.any_eq_true]
  constructor
  · rintro ⟨p, hp, hc⟩
    exact ⟨p, hp, (strContains_iff_HasSub link p).1 hc⟩
  · rintro ⟨p, hp, hc⟩
    exact ⟨p, hp, (strContains_iff_HasSub link p).2 hc⟩

/-- C3: `should_crawl_link(link, base_url, patterns)` returns `True` iff
`link` starts with `base_url` as a literal case-sensitive string prefix,
and: when `patterns` is provided and non-empty, `link` contains some element
of `patterns` as a substring; otherwise `link` contains one of the five
default substrings `/api/`, `/guide/`, `/docs/`, `/reference/`,
`/tutorial/`. -/
theorem should_crawl_link_characterization (link base_url : String)
    (patterns : Option (List String)) :
    should_crawl_link link base_url patterns = true ↔
      (HasPrefixStr link base_url ∧
        match patterns with
        | some ps =>
          if ps = [] then ∃ p ∈ default_patterns, HasSub link p
          else ∃ p ∈ ps, HasSub link p
        | none => ∃ p ∈ default_patterns, HasSub link p) := by
  rw [should_crawl_link]
  cases hsw : strStartsWith link base_url with
  | false =>
    simp only [Bool.not_false, if_pos]
    constructor
    · intro hf
      exact absurd hf (by simp)
    · rintro ⟨hpre, _⟩
      exact absurd ((strStartsWith_iff_HasPrefixStr link base_url).2 hpre)
        (by simp [hsw])
  | true =>
    have hpre : HasPrefixStr link base_url :=
      (strStartsWith_iff_HasPrefixStr link base_url).1 hsw
    simp only [Bool.not_true, Bool.false_eq_true, if_false]
    cases patterns with
    | none =>
      simp only [patternsTruthy, Bool.false_eq_true, if_false]
      rw [any_strContains_iff]
      exact ⟨fun hc => ⟨hpre, hc⟩, fun hc => hc.2⟩
    | some ps =>
      cases hps : ps.isEmpty with
      | true =>
        have hnil : ps = [] := List.isEmpty_iff.1 hps
        subst hnil
        simp only [patternsTruthy, List.isEmpty_nil, Bool.not_true,
          Bool.false_eq_true, if_false, if_pos rfl]
        rw [any_strContains_iff]
        exact ⟨fun hc => ⟨hpre, hc⟩, fun hc => hc.2⟩
      | false =>
        have hne : ¬ ps = [] := by
          intro hnil
          subst hnil
          simp at hps
        simp only [patternsTruthy, hps, Bool.not_false, if_true, if_neg hne,
          Option.getD_some]
        rw [any_strContains_iff]
        exact ⟨fun hc => ⟨hpre, hc⟩, fun hc => hc.2⟩

/-- C5: every `PageNode` stored in the returned graph records a depth of at
most the `depth` parameter (entries beyond the depth bound are skipped
before any node is created). -/
theorem extend_node_depth_le (fetch : String → FetchResult)
    (framework_name base_url : String) (depth : Int) (patterns : Option (List String))
    (u : String) (n : PageNode)
    (h : dictGet (extend_knowledge_graph fetch framework_name base_url depth patterns).nodes u
      = some n) :
    n.depth ≤ depth := by
  simp only [extend_knowledge_graph] at h
  exact (extendState_inv fetch base_url depth patterns).nodes_depth_le
    (u, n) (dictGet_eq_some_mem _ _ _ h)

/-- A fetch oracle that always succeeds with a fixed page and no links. -/
def okFetch : String → FetchResult :=
  fun _ => { success := true, title := "t", main_concepts := [], api_methods := [], links := [] }

theorem extend_node_depth_le_witness :
    dictGet (extend_knowledge_graph okFetch "fw" "https://x.com" 0 none).nodes "https://x.com"
        = some { title := "t", concepts := [], apis := [], depth := 0 } ∧
      ({ title := "t", concepts := [], apis := [], depth := 0 } : PageNode).depth ≤ 0 := by
  have hget : dictGet (extend_knowledge_graph okFetch "fw" "https://x.com" 0 none).nodes
      "https://x.com" = some { title := "t", concepts := [], apis := [], depth := 0 } := by
    simp [extend_knowledge_graph, extendState, initState, crawlLoop, okFetch, dictSet,
      dictGet, mkNode]
  exact ⟨hget, extend_node_depth_le okFetch "fw" "https://x.com" 0 none "https://x.com" _ hget⟩

/-- With a negative depth bound the seed entry is depth-skipped and the
loop ends with the queue drained and nothing else done. -/
theorem extendState_neg_depth (fetch : String → FetchResult) (base_url : String)
    (depth : Int) (patterns : Option (List String)) (h0 : (0 : Int) > depth) :
    extendState fetch base_url depth patterns =
      { url_queue := []
        visited_urls := []
        nodes := []
        relationships := []
        fetched := []
        enqueued := [(base_url, 0)]
        popped := [(base_url, 0)]
        nodeWrites := [] } := by
  rw [extendState, initState]
  rw [crawlLoop_skip_eq rfl (by simp) (Or.inr h0)]
  exact crawlLoop_nil rfl

/-- When the seed entry is within depth but its fetch fails, the loop ends
after that single failed fetch with an empty graph. -/
theorem extendState_base_fail (fetch : String → FetchResult) (base_url : String)
    (depth : Int) (patterns : Option (List String)) (h0 : ¬ (0 : Int) > depth)
    (hfb : (fetch base_url).success = false) :
    extendState fetch base_url depth patterns =
      { url_queue := []
        visited_urls := [base_url]
        nodes := []
        relationships := []
        fetched := [(base_url, 0)]
        enqueued := [(base_url, 0)]
        popped := [(base_url, 0)]
        nodeWrites := [] } := by
  rw [extendState, initState]
  rw [crawlLoop_fail_eq rfl (by simp) (not_or.2 ⟨by simp, h0⟩) (by simp [hfb])]
  exact crawlLoop_nil rfl

/-- C10: with a negative `depth` the seeded entry `(base_url, 0)` is
depth-skipped before being visited or fetched: no fetch happens and the
returned graph keeps `framework` and `base_url` but has empty `nodes` and
`relationships`. -/
theorem extend_negative_depth (fetch : String → FetchResult)
    (framework_name base_url : String) (depth : Int) (patterns : Option (List String))
    (hneg : depth < 0) :
    extend_knowledge_graph fetch framework_name base_url depth patterns =
        { framework := framework_name, base_url := base_url, nodes := [], relationships := [] } ∧
      (extendState fetch base_url depth patterns).fetched = [] := by
  have h1 := extendState_neg_depth fetch base_url depth patterns hneg
  constructor
  · rw [extend_knowledge_graph, h1]
  · rw [h1]

theorem extend_negative_depth_witness :
    ((-1 : Int) < 0) ∧
      (extend_knowledge_graph okFetch "fw" "https://x.com" (-1) none =
          { framework := "fw", base_url := "https://x.com", nodes := [], relationships := [] } ∧
        (extendState okFetch "https://x.com" (-1) none).fetched = []) :=
  ⟨by decide, extend_negative_depth okFetch "fw" "https://x.com" (-1) none (by decide)⟩

/-- C8: each URL receives at most one node write during an invocation (the
write log and the nodes dict coincide and keys are unique, so a node is
never overwritten after creation), and the recorded depth of every node
equals the depth attached to the first queue entry ever enqueued for that
URL. -/
theorem extend_first_discovered_wins (fetch : String → FetchResult) (base_url : String)
    (depth : Int) (patterns : Option (List String)) :
    (extendState fetch base_url depth patterns).nodeWrites =
        (extendState fetch base_url depth patterns).nodes ∧
      ((extendState fetch base_url depth patterns).nodes.map Prod.fst).Nodup ∧
      ∀ p ∈ (extendState fetch base_url depth patterns).nodes,
        ((extendState fetch base_url depth patterns).enqueued.find?
            (fun e => e.1 == p.1)).map Prod.snd = some (Prod.snd p).depth := by
  have h := extendState_inv fetch base_url depth patterns
  exact ⟨h.nodes_writes, h.nodes_keys_nodup, h.nodes_first_enq⟩

theorem extend_first_discovered_wins_witness :
    ("https://x.com", ({ title := "t", concepts := [], apis := [], depth := 0 } : PageNode)) ∈
        (extendState okFetch "https://x.com" 0 none).nodes ∧
      ((extendState okFetch "https://x.com" 0 none).enqueued.find?
          (fun e => e.1 == "https://x.com")).map Prod.snd = some (0 : Int) := by
  have hmem : ("https://x.com",
      ({ title := "t", concepts := [], apis := [], depth := 0 } : PageNode)) ∈
      (extendState okFetch "https://x.com" 0 none).nodes := by
    simp [extendState, initState, crawlLoop, okFetch, dictSet, mkNode]
  refine ⟨hmem, ?_⟩
  have hw := (extend_first_discovered_wins okFetch "https://x.com" 0 none).2.2 _ hmem
  simpa using hw

/-- C6: a URL whose fetch reports `success=false` contributes no node and no
outgoing edges, and when the base URL's own fetch fails the returned graph
has no nodes and no edges at all. -/
theorem extend_fetch_failure (fetch : String → FetchResult)
    (framework_name base_url : String) (depth : Int) (patterns : Option (List String)) :
    (∀ u, (fetch u).success = false →
        dictGet (extend_knowledge_graph fetch framework_name base_url depth patterns).nodes u
            = none ∧
          ∀ e ∈ (extend_knowledge_graph fetch framework_name base_url depth
              patterns).relationships, e.fromUrl ≠ u) ∧
      ((fetch base_url).success = false →
        (extend_knowledge_graph fetch framework_name base_url depth patterns).nodes = [] ∧
          (extend_knowledge_graph fetch framework_name base_url depth
            patterns).relationships = []) := by
  have h := extendState_inv fetch base_url depth patterns
  constructor
  · intro u hu
    constructor
    · simp only [extend_knowledge_graph]
      rw [dictGet]
      cases hf : (extendState fetch base_url depth patterns).nodes.find?
          (fun p => p.1 == u) with
      | none => rfl
      | some p =>
        have hp1 : p.1 = u := by simpa using List.find?_some hf
        have hsucp := h.nodes_success p (List.mem_of_find?_eq_some hf)
        rw [hp1, hu] at hsucp
        cases hsucp
    · intro e he heq
      simp only [extend_knowledge_graph] at he
      rcases List.mem_map.1 (h.rels_from_nodes e he) with ⟨p, hp, hpe⟩
      have hsucp := h.nodes_success p hp
      rw [hpe, heq, hu] at hsucp
      cases hsucp
  · intro hfb
    by_cases hd : (0 : Int) > depth
    · have h1 := extendState_neg_depth fetch base_url depth patterns hd
      rw [extend_knowledge_graph, h1]
      exact ⟨rfl, rfl⟩
    · have h1 := extendState_base_fail fetch base_url depth patterns hd hfb
      rw [extend_knowledge_graph, h1]
      exact ⟨rfl, rfl⟩

/-- A fetch oracle that always fails. -/
def failFetch : String → FetchResult :=
  fun _ => { success := false, title := "", main_concepts := [], api_methods := [], links := [] }

theorem extend_fetch_failure_witness :
    (failFetch "https://x.com").success = false ∧
      dictGet (extend_knowledge_graph failFetch "fw" "https://x.com" 2 none).nodes
          "https://x.com" = none ∧
      (extend_knowledge_graph failFetch "fw" "https://x.com" 2 none).nodes = [] ∧
      (extend_knowledge_graph failFetch "fw" "https://x.com" 2 none).relationships = [] := by
  have hf : (failFetch "https://x.com").success = false := rfl
  have h1 := (extend_fetch_failure failFetch "fw" "https://x.com" 2 none).1
    "https://x.com" hf
  have h2 := (extend_fetch_failure failFetch "fw" "https://x.com" 2 none).2 hf
  exact ⟨hf, h1.1, h2.1, h2.2⟩

/-- A fetch oracle where the base page links to a subpage whose own fetch
fails, so the edge's target never becomes a node. -/
def linkFetch : String → FetchResult :=
  fun u =>
    if u = "https://x.com" then
      { success := true, title := "t", main_concepts := [], api_methods := [],
        links := ["https://x.com/api/a"] }
    else
      { success := false, title := "", main_concepts := [], api_methods := [], links := [] }

/-- The edge produced by the `linkFetch` crawl below. -/
def edgeXA : Edge :=
  { fromUrl := "https://x.com", toUrl := "https://x.com/api/a", type := "references" }

/-- C9: in every returned graph the from-URL of each edge is a key of the
nodes dict (edges are appended only right after the node of the current URL
was added), while a to-URL need not be a node, as the concrete crawl run in
the second conjunct shows. -/
theorem extend_edge_sources_are_nodes :
    (∀ (fetch : String → FetchResult) (framework_name base_url : String) (depth : Int)
        (patterns : Option (List String)),
      ∀ e ∈ (extend_knowledge_graph fetch framework_name base_url depth
          patterns).relationships,
        e.fromUrl ∈ (extend_knowledge_graph fetch framework_name base_url depth
          patterns).nodes.map Prod.fst) ∧
      (∃ e ∈ (extend_knowledge_graph linkFetch "fw" "https://x.com" 1 none).relationships,
        e.toUrl ∉ (extend_knowledge_graph linkFetch "fw" "https://x.com" 1
          none).nodes.map Prod.fst) := by
  constructor
  · intro fetch framework_name base_url depth patterns e he
    simp only [extend_knowledge_graph] at he ⊢
    exact (extendState_inv fetch base_url depth patterns).rels_from_nodes e he
  · have hsc : should_crawl_link "https://x.com/api/a" "https://x.com" none = true := by
      decide
    refine ⟨edgeXA, ?_, ?_⟩
    · simp [extend_knowledge_graph, extendState, initState, crawlLoop, linkFetch,
        expandLinks, dictSet, mkNode, hsc, edgeXA]
    · simp [extend_knowledge_graph, extendState, initState, crawlLoop, linkFetch,
        expandLinks, dictSet, mkNode, hsc, edgeXA]

theorem extend_edge_sources_are_nodes_witness :
    edgeXA ∈ (extend_knowledge_graph linkFetch "fw" "https://x.com" 1 none).relationships ∧
      edgeXA.fromUrl ∈ (extend_knowledge_graph linkFetch "fw" "https://x.com" 1
        none).nodes.map Prod.fst := by
  have hsc : should_crawl_link "https://x.com/api/a" "https://x.com" none = true := by decide
  have hmem : edgeXA ∈
      (extend_knowledge_graph linkFetch "fw" "https://x.com" 1 none).relationships := by
    simp [extend_knowledge_graph, extendState, initState, crawlLoop, linkFetch,
      expandLinks, dictSet, mkNode, hsc, edgeXA]
  exact ⟨hmem, extend_edge_sources_are_nodes.1 linkFetch "fw" "https://x.com" 1 none _ hmem⟩

/-- An engine behavior whose `arun` raises on every call. -/
def arunBoom : String → String → Except String ArunResult :=
  fun _ _ => .error "boom"

/-- An engine behavior whose `arun` returns normally but reports
`success=False` (e.g. an HTTP error surfaced in the result object). -/
def arunFail : String → String → Except String ArunResult :=
  fun _ _ =>
    .ok { metadata := [], markdown := "", extracted_content := none, links := [],
          success := false }

/-- C7 counterexample: on the exception path the dict returned by
`crawl_documentation` has no `title` and no `metadata` key (it is
`{url, error, success}` only), and on a non-raising fetch that reports
`success=False` the dict has no `error` key — both contradicting the claim
that every result includes url/title/metadata/success and that every
failure carries an error message field. -/
theorem crawl_documentation_contract_counterexample :
    (crawl_documentation arunBoom "https://x.com" "markdown").title = none ∧
      (crawl_documentation arunBoom "https://x.com" "markdown").metadata = none ∧
      (crawl_documentation arunBoom "https://x.com" "markdown").success = false ∧
      (crawl_documentation arunFail "https://x.com" "markdown").success = false ∧
      (crawl_documentation arunFail "https://x.com" "markdown").error = none :=
  ⟨rfl, rfl, rfl, rfl, rfl⟩

/-- C7 (amended): `crawl_documentation` never raises and always returns a
dict with `url` and `success`.  On the exception path the dict is exactly
`{url, error, success=False}` — `title`, `content`, `links` and `metadata`
are absent; on the normal-return path `title`, `content`, `links` and
`metadata` are present, `success` mirrors the engine's flag, and there is
no `error` key even when that flag is `False`. -/
theorem crawl_documentation_contract (arun : String → String → Except String ArunResult)
    (url extract_type : String) :
    (crawl_documentation arun url extract_type).url = url ∧
      (∀ e, arun url extract_type = .error e →
        crawl_documentation arun url extract_type =
          { url := url
            title := none
            content := none
            links := none
            metadata := none
            success := false
            error := some e }) ∧
      (∀ r, arun url extract_type = .ok r →
        (crawl_documentation arun url extract_type).title ≠ none ∧
          (crawl_documentation arun url extract_type).metadata ≠ none ∧
          (crawl_documentation arun url extract_type).content ≠ none ∧
          (crawl_documentation arun url extract_type).links ≠ none ∧
          (crawl_documentation arun url extract_type).success = r.success ∧
          (crawl_documentation arun url extract_type).error = none) := by
  cases h : arun url extract_type with
  | error e => simp [crawl_documentation, h]
  | ok r => simp [crawl_documentation, h]

theorem crawl_documentation_contract_witness :
    (crawl_documentation arunBoom "https://x.com" "markdown").url = "https://x.com" ∧
      crawl_documentation arunBoom "https://x.com" "markdown" =
        { url := "https://x.com"
          title := none
          content := none
          links := none
          metadata := none
          success := false
          error := some "boom" } :=
  ⟨(crawl_documentation_contract arunBoom "https://x.com" "markdown").1,
    (crawl_documentation_contract arunBoom "https://x.com" "markdown").2.1 "boom" rfl⟩

theorem should_crawl_link_characterization_witness :
    HasPrefixStr "https://x.com/api/foo" "https://x.com" ∧
      ∃ p ∈ default_patterns, HasSub "https://x.com/api/foo" p :=
  (should_crawl_link_characterization "https://x.com/api/foo" "https://x.com" none).1
    (by decide)
